import Mathlib

/-!
Verification development for the shift-scheduling program
(`models.py` and `scheduler.py`).

Shallow embedding conventions:
* A Python `time` value (time of day) is a rational number of hours in
  `[0, 24)`.  A Python `datetime` obtained by combining a date with a time,
  and then possibly shifted past midnight by `timedelta` arithmetic, is a
  rational number of hours measured from midnight of the anchoring date
  (so it may be `≥ 24`).  `.time()` on such a value is `timeOfDay`.
* Python `float` arithmetic on these quantities is modelled exactly over `ℚ`
  (all the operations involved are field operations and comparisons).
* A Python `datetime.datetime` used as a calendar-date key and a Python
  `datetime.date` are distinct, never-equal values; `PyDate` models this
  with two constructors, mirroring the fact that in Python
  `date(y, m, d) == datetime(y, m, d)` is `False`.
* Python dicts keyed by dates or weekdays are association lists; lookup is
  `dictGet`, and the Python `in` test on a dict or list is `∈` / `contains`
  of the keys.
* `list.sort(key = k)` is the stable sort by `k`; any stable sort gives the
  same list, and we use insertion sort with the non-strict lexicographic
  order on the key, which is stable in the same sense.
-/

/-- Calendar date (the date component of a Python `datetime`).  The scheduler
    only ever passes midnight `datetime`s, and `models.py` normalizes every
    date key with `_normalize_date`, so a plain (year, month, day) triple is
    an exact model of the normalized values. -/
structure Date where
  year : Nat
  month : Nat
  day : Nat
deriving DecidableEq, Repr

/-- A Python value used as a date key: either a `datetime.datetime`
    (constructor `dtime`) or a `datetime.date` (constructor `dateOnly`).
    In Python these are never equal to each other, which `DecidableEq` on
    this inductive reproduces.  `models.py` stores and looks up `datetime`
    keys; the scheduler fallback (line 260 of `scheduler.py`) looks up a
    `datetime.date`. -/
inductive PyDate where
  | dtime (d : Date)
  | dateOnly (d : Date)
deriving DecidableEq, Repr

/-- Association-list lookup, modelling Python dict lookup (`d[k]` guarded by
    `k in d`, or `d.get(k)`). -/
def dictGet {κ α : Type} [DecidableEq κ] (k : κ) (l : List (κ × α)) : Option α :=
  match l.find? (fun kv => decide (kv.1 = k)) with
  | some kv => some kv.2
  | none => none

/-- The time-of-day of a rational "hours since the anchor date's midnight"
    value: Python `datetime.time()`.  For values in `[0, 48)` this is the
    value itself or the value minus 24. -/
def timeOfDay (q : ℚ) : ℚ := q - 24 * (⌊q / 24⌋ : ℤ)

/-- Wrap-corrected duration between two times of day, as computed by
    `TimeSlot.duration_hours` and `Shift.duration_hours` in `models.py`:
    if `end < start` the window crosses midnight and 24h is added. -/
def durationHours (s e : ℚ) : ℚ := if e < s then e + 24 - s else e - s

/-- `Employee._times_overlap` (`models.py` lines 127-133): wrap-correct each
    range independently, then half-open interval overlap. -/
def times_overlap (s1 e1 s2 e2 : ℚ) : Bool :=
  let e1c := if e1 < s1 then e1 + 24 else e1
  let e2c := if e2 < s2 then e2 + 24 else e2
  decide (s1 < e2c) && decide (e1c > s2)

/-- `Employee._is_within_range` (`models.py` lines 135-141): wrap-correct
    each range independently, then containment. -/
def is_within_range (s e rs re : ℚ) : Bool :=
  let ec := if e < s then e + 24 else e
  let rec' := if re < rs then re + 24 else re
  decide (s ≥ rs) && decide (ec ≤ rec')

/-- `Employee` (`models.py`).  Weekdays are `Nat` values `0`–`6` (Monday =
    `0`), matching the `DayOfWeek` enum.  Date-keyed structures hold `PyDate`
    keys; `models.py` itself always stores normalized `datetime` keys, i.e.
    `PyDate.dtime` values. -/
structure Employee where
  name : String
  preferred_days : List Nat := []
  preferred_start_time : Option ℚ := none
  preferred_end_time : Option ℚ := none
  preferred_times_by_day : List (Nat × ℚ × ℚ) := []
  available_times_by_day : List (Nat × ℚ × ℚ) := []
  unavailable_days : List Nat := []
  unavailable_times_by_day : List (Nat × ℚ × ℚ) := []
  preferred_dates : List PyDate := []
  preferred_times_by_date : List (PyDate × ℚ × ℚ) := []
  unavailable_dates : List PyDate := []
  unavailable_times_by_date : List (PyDate × ℚ × ℚ) := []
  available_times_by_date : List (PyDate × ℚ × ℚ) := []
  max_hours_per_month : ℚ := 160
  min_hours_per_shift : ℚ := 4
  max_hours_per_shift : ℚ := 8
deriving DecidableEq, Repr

/-- `Employee.can_work` (`models.py` lines 114-116). -/
def Employee.can_work (e : Employee) (day : Nat) : Bool :=
  !(e.unavailable_days.contains day)

/-- The weekday-rule part of `Employee.is_available_at_time`
    (`models.py` lines 169-192), reached when no date-specific rule
    returned first. -/
def Employee.isAvailableWeekday (e : Employee) (day : Nat) (s ee : ℚ) : Bool :=
  if e.unavailable_days.contains day && !(dictGet day e.unavailable_times_by_day).isSome then
    false
  else
    let overlapRejects :=
      match dictGet day e.unavailable_times_by_day with
      | some (us, ue) => times_overlap s ee us ue
      | none => false
    if overlapRejects then false
    else
      match dictGet day e.available_times_by_day with
      | some (as', ae) => is_within_range s ee as' ae
      | none => true

/-- `Employee.is_available_at_time` (`models.py` lines 143-192).  The date
    block checks `unavailable_dates` first; only when the date carries the
    whole-day unavailable mark is `unavailable_times_by_date` consulted,
    otherwise control falls to the `available_times_by_date` check and then
    to the weekday rules. -/
def Employee.is_available_at_time (e : Employee) (day : Nat) (start_time end_time : ℚ)
    (date : Option Date) : Bool :=
  match date with
  | some dt =>
    if e.unavailable_dates.contains (PyDate.dtime dt) then
      match dictGet (PyDate.dtime dt) e.unavailable_times_by_date with
      | some (us, ue) => !(times_overlap start_time end_time us ue)
      | none => false
    else
      match dictGet (PyDate.dtime dt) e.available_times_by_date with
      | some (as', ae) => is_within_range start_time end_time as' ae
      | none => e.isAvailableWeekday day start_time end_time
  | none => e.isAvailableWeekday day start_time end_time

/-- `Employee.prefers_day` (`models.py` lines 194-202). -/
def Employee.prefers_day (e : Employee) (day : Nat) (date : Option Date) : Bool :=
  match date with
  | some dt =>
    if e.preferred_dates.contains (PyDate.dtime dt) then true
    else if (dictGet (PyDate.dtime dt) e.preferred_times_by_date).isSome then true
    else e.preferred_days.contains day
  | none => e.preferred_days.contains day

/-- `StoreHours` (`models.py`): weekday defaults plus date overrides, where
    an override value `none` is the explicit closed marker
    (`set_closed_for_date`). -/
structure StoreHours where
  hours : List (Nat × ℚ × ℚ) := []
  date_overrides : List (Date × Option (ℚ × ℚ)) := []
deriving DecidableEq, Repr

/-- `StoreHours.get_hours` (`models.py` lines 65-71): the date override is
    returned verbatim when present, else the weekday default. -/
def StoreHours.get_hours (sh : StoreHours) (day : Nat) (date : Option Date) :
    Option (ℚ × ℚ) :=
  match date with
  | some d =>
    match dictGet d sh.date_overrides with
    | some v => v
    | none => dictGet day sh.hours
  | none => dictGet day sh.hours

/-- `StoreHours.is_open` (`models.py` lines 73-79): with a date override the
    answer is whether the override is not the closed marker, else whether
    the weekday key is present (`day in self.hours`). -/
def StoreHours.is_open (sh : StoreHours) (day : Nat) (date : Option Date) : Bool :=
  match date with
  | some d =>
    match dictGet d sh.date_overrides with
    | some v => v.isSome
    | none => (sh.hours.map Prod.fst).contains day
  | none => (sh.hours.map Prod.fst).contains day

/-- `Shift` (`models.py`). -/
structure Shift where
  employee_name : String
  day : Nat
  start_time : ℚ
  end_time : ℚ
  date : Option Date := none
deriving DecidableEq, Repr

/-- `Shift.duration_hours` (`models.py` lines 222-228). -/
def Shift.duration_hours (s : Shift) : ℚ := durationHours s.start_time s.end_time

/-- `Schedule` (`models.py`). -/
structure Schedule where
  month : Nat
  year : Nat
  shifts : List Shift := []
deriving DecidableEq, Repr

/-- `Schedule.get_shifts_for_employee`. -/
def Schedule.get_shifts_for_employee (sc : Schedule) (employee_name : String) :
    List Shift :=
  sc.shifts.filter (fun s => decide (s.employee_name = employee_name))

/-- `Schedule.get_total_hours_for_employee`. -/
def Schedule.get_total_hours_for_employee (sc : Schedule) (employee_name : String) : ℚ :=
  ((sc.get_shifts_for_employee employee_name).map Shift.duration_hours).sum

/-- `Schedule.get_shifts_for_day`. -/
def Schedule.get_shifts_for_day (sc : Schedule) (day : Nat) (date : Option Date) :
    List Shift :=
  match date with
  | some d => sc.shifts.filter (fun s => decide (s.day = day) && decide (s.date = some d))
  | none => sc.shifts.filter (fun s => decide (s.day = day))

/-! ### Calendar (the proleptic Gregorian calendar used by Python `datetime`) -/

/-- Gregorian leap-year test. -/
def isLeapYear (y : Nat) : Bool :=
  y % 4 = 0 && (y % 100 ≠ 0 || y % 400 = 0)

/-- Number of days in a month of the Gregorian calendar. -/
def daysInMonth (y m : Nat) : Nat :=
  if m = 2 then (if isLeapYear y then 29 else 28)
  else if m = 4 || m = 6 || m = 9 || m = 11 then 30
  else 31

/-- Days in all years before year `y` (year 1 is the first year). -/
def daysBeforeYear (y : Nat) : Nat :=
  365 * (y - 1) + (y - 1) / 4 - (y - 1) / 100 + (y - 1) / 400

/-- Days in the months of year `y` strictly before month `m`. -/
def daysBeforeMonth (y m : Nat) : Nat :=
  ((List.range (m - 1)).map (fun i => daysInMonth y (i + 1))).sum

/-- Proleptic-Gregorian ordinal of a date (0001-01-01 has ordinal 1), as in
    Python `datetime.toordinal`. -/
def Date.toOrdinal (d : Date) : Nat :=
  daysBeforeYear d.year + daysBeforeMonth d.year d.month + d.day

/-- Python `datetime.weekday()`: Monday = 0.  0001-01-01 (ordinal 1) is a
    Monday. -/
def pyWeekday (d : Date) : Nat := (d.toOrdinal + 6) % 7

/-- Successor date in the Gregorian calendar (`date + timedelta(days=1)`). -/
def nextDate (d : Date) : Date :=
  if d.day < daysInMonth d.year d.month then ⟨d.year, d.month, d.day + 1⟩
  else if d.month = 12 then ⟨d.year + 1, 1, 1⟩
  else ⟨d.year, d.month + 1, 1⟩

/-- The collecting loop of `ShiftScheduler._get_dates_in_month`
    (`scheduler.py` lines 61-70): starting from the first of the month,
    append the current date and step one day while the month matches.  The
    Python loop is unbounded; since no month has more than 31 days it makes
    at most 31 collecting steps, so fuel 40 is enough to never alter the
    result. -/
def datesLoop (m : Nat) : Nat → Date → List Date
  | 0, _ => []
  | fuel + 1, cur =>
    if cur.month = m then cur :: datesLoop m fuel (nextDate cur)
    else []

/-- `ShiftScheduler._get_dates_in_month`. -/
def getDatesInMonth (year month : Nat) : List Date :=
  datesLoop month 40 ⟨year, month, 1⟩

/-! ### The shift allocation engine (`scheduler.py`) -/

/-- Wrap correction applied to the day's closing position
    (`scheduler.py` lines 90-93): `close_dt` gains a day when it precedes
    `open_dt`. -/
def wrapClose (openT closeT : ℚ) : ℚ := if closeT < openT then closeT + 24 else closeT

/-- The sort key comparison for `available_employees.sort(key=lambda e:
    (not e.prefers_day(day, date), employee_hours[e.name] / e.max_hours_per_month))`
    (`scheduler.py` lines 111-116 and 152-158): non-strict lexicographic
    order on the pair (so that a stable sort by it equals Python's stable
    sort by the key).  Division by zero cannot arise on sorted lists the
    scheduler builds, because filtered employees satisfy
    `hours < max_hours_per_month` and hours are non-negative. -/
def sortKeyLe (hrs : String → ℚ) (day : Nat) (date : Date) (a b : Employee) : Bool :=
  let ka := !(a.prefers_day day (some date))
  let kb := !(b.prefers_day day (some date))
  let fa := hrs a.name / a.max_hours_per_month
  let fb := hrs b.name / b.max_hours_per_month
  (!ka && kb) || (ka == kb && decide (fa ≤ fb))

/-- The eligibility filter used both before the loop (`scheduler.py` lines
    99-103) and at each iteration (lines 142-146). -/
def eligibleEmployees (emps : List Employee) (day : Nat) (hrs : String → ℚ) :
    List Employee :=
  emps.filter (fun e => e.can_work day && decide (hrs e.name < e.max_hours_per_month))

/-- The sorted eligible list of one loop iteration (`scheduler.py`
    lines 152-158). -/
def sortedEligible (emps : List Employee) (day : Nat) (date : Date) (hrs : String → ℚ) :
    List Employee :=
  List.insertionSort (fun a b => sortKeyLe hrs day date a b = true)
    (eligibleEmployees emps day hrs)

/-- `sorted(set(l), reverse=True)`: the distinct values of `l` in descending
    order. -/
def sortedDescDedup (l : List ℚ) : List ℚ :=
  List.insertionSort (fun a b => b ≤ a) l.dedup

/-- The candidate-duration list for one employee (`scheduler.py` lines
    182-186). -/
def potentialDurations (shift_duration remaining_hours remaining_time : ℚ) : List ℚ :=
  sortedDescDedup
    [min shift_duration (min remaining_hours remaining_time),
     min remaining_hours remaining_time,
     remaining_time]

/-- `allow_short_shift` (`scheduler.py` lines 189-194): leniency condition
    for the first shift of the day. -/
def allowShortShift (shiftsEmpty : Bool) (d rt minShift : ℚ) : Bool :=
  shiftsEmpty && (decide (d ≥ rt * (4/5)) || decide (rt < minShift))

/-- The two rejection tests guarding a candidate duration (`scheduler.py`
    lines 196-199): below the employee minimum without leniency, or lenient
    but under one hour. -/
def lengthCheckRejects (minShift : ℚ) (shiftsEmpty : Bool) (d rt : ℚ) : Bool :=
  let allow := allowShortShift shiftsEmpty d rt minShift
  (decide (d < minShift) && !allow) || (allow && decide (d < 1))

/-- The inner `for actual_shift_duration in potential_durations` loop
    (`scheduler.py` lines 188-223) for one employee: returns the end
    position of the first accepted candidate.  The clipping branch (lines
    202-206) recomputes the duration against the close position and
    re-checks only the bare minimum. -/
def tryDurations (e : Employee) (day : Nat) (date : Date) (shiftsEmpty : Bool)
    (current closeP rt : ℚ) : List ℚ → Option ℚ
  | [] => none
  | d :: rest =>
    if lengthCheckRejects e.min_hours_per_shift shiftsEmpty d rt then
      tryDurations e day date shiftsEmpty current closeP rt rest
    else
      let end0 := current + d
      if end0 > closeP then
        if closeP - current < e.min_hours_per_shift then
          tryDurations e day date shiftsEmpty current closeP rt rest
        else if e.is_available_at_time day (timeOfDay current) (timeOfDay closeP)
            (some date) then
          some closeP
        else tryDurations e day date shiftsEmpty current closeP rt rest
      else if e.is_available_at_time day (timeOfDay current) (timeOfDay end0)
          (some date) then
        some end0
      else tryDurations e day date shiftsEmpty current closeP rt rest

/-- The `while attempts < len(available_employees)` walk (`scheduler.py`
    lines 171-227).  `employee_index` is reset to 0 at every outer iteration
    (line 161) and is incremented in lockstep with `attempts` on failure, so
    the walk visits the sorted list in order from its head, stopping at the
    first employee for which some candidate duration is accepted. -/
def tryEmployees (day : Nat) (date : Date) (shiftsEmpty : Bool)
    (current closeP rt sd : ℚ) (hrs : String → ℚ) :
    List Employee → Option (Employee × ℚ)
  | [] => none
  | e :: rest =>
    let remaining_hours := e.max_hours_per_month - hrs e.name
    match tryDurations e day date shiftsEmpty current closeP rt
        (potentialDurations sd remaining_hours rt) with
    | some endP => some (e, endP)
    | none => tryEmployees day date shiftsEmpty current closeP rt sd hrs rest

/-- The relaxed last-chance pass inside the loop (`scheduler.py` lines
    230-248): when the day still has no shift, try each eligible employee's
    bare minimum duration. -/
def relaxedPass (day : Nat) (date : Date) (current closeP rt : ℚ) :
    List Employee → Option (Employee × ℚ)
  | [] => none
  | e :: rest =>
    let min_duration := e.min_hours_per_shift
    if rt ≥ min_duration then
      let endP := min (current + min_duration) closeP
      if e.is_available_at_time day (timeOfDay current) (timeOfDay endP) (some date) then
        some (e, endP)
      else relaxedPass day date current closeP rt rest
    else relaxedPass day date current closeP rt rest

/-- Loop state of `_generate_shifts_for_day`: produced shifts, the running
    hours dict, the cursor position and the probe guard `last_current_dt`. -/
structure DayState where
  shifts : List Shift
  hours : String → ℚ
  current : ℚ
  last : Option ℚ

/-- Pointwise update of the hours dict. -/
def updateHours (hrs : String → ℚ) (n : String) (v : ℚ) : String → ℚ :=
  fun x => if x = n then v else hrs x

/-- Materializing a shift (`scheduler.py` lines 209-221 and 237-246): append
    it, add its `duration_hours()` to the employee's hours, advance the
    cursor to its end. -/
def placeShift (st : DayState) (e : Employee) (day : Nat) (date : Date) (endP : ℚ) :
    DayState :=
  let shift : Shift :=
    { employee_name := e.name, day := day, start_time := timeOfDay st.current,
      end_time := timeOfDay endP, date := some date }
  { shifts := st.shifts ++ [shift],
    hours := updateHours st.hours e.name (st.hours e.name + shift.duration_hours),
    current := endP,
    last := st.last }

/-- The target shift length (`scheduler.py` lines 118-128): the whole day
    when it is at most 6 hours, otherwise an equal split among
    `max(2, int(total/8) + (1 if total % 8 > 0 else 0))` people.  `int` of
    the non-negative float quotient is its floor, and the float `%` is
    `total - 8 * floor(total / 8)`. -/
def targetShiftDuration (total_hours : ℚ) : ℚ :=
  if total_hours ≤ 6 then total_hours
  else
    let fl : ℤ := ⌊total_hours / 8⌋
    let rem : ℚ := total_hours - 8 * (fl : ℚ)
    let num_people : ℤ := max 2 (fl + (if rem > 0 then 1 else 0))
    total_hours / (num_people : ℚ)

/-- Python `min` over a non-empty list (`scheduler.py` line 166); the code
    guards the empty case with the literal 0. -/
def listMinQ : List ℚ → ℚ
  | [] => 0
  | x :: xs => xs.foldl min x

/-- The main `while current_dt < close_dt` loop of
    `_generate_shifts_for_day` (`scheduler.py` lines 134-256).  The fuel is
    the source's own `max_iterations = 1000` bound. -/
def dayLoop (emps : List Employee) (day : Nat) (date : Date) (closeP sd : ℚ) :
    Nat → DayState → DayState
  | 0, st => st
  | fuel + 1, st =>
    if st.current < closeP then
      let avail := eligibleEmployees emps day st.hours
      if avail.isEmpty then st
      else
        let sorted := sortedEligible emps day date st.hours
        let rt := closeP - st.current
        let min_shift_duration := listMinQ (sorted.map Employee.min_hours_per_shift)
        if rt < min_shift_duration && (!st.shifts.isEmpty || decide (rt < 1/4)) then st
        else
          match tryEmployees day date st.shifts.isEmpty st.current closeP rt sd
              st.hours sorted with
          | some (e, endP) =>
            dayLoop emps day date closeP sd fuel (placeShift st e day date endP)
          | none =>
            match (if st.shifts.isEmpty then
                     relaxedPass day date st.current closeP rt sorted
                   else none) with
            | some (e, endP) =>
              dayLoop emps day date closeP sd fuel (placeShift st e day date endP)
            | none =>
              let next := st.current + 1/4
              if st.last = some st.current || next ≥ closeP then st
              else
                dayLoop emps day date closeP sd fuel
                  { st with current := next, last := some st.current }
    else st

/-- `_generate_shifts_for_day` without its final fallback block
    (`scheduler.py` lines 72-256): early return on an empty initial
    eligible set, otherwise run the day loop.  Returns the produced shifts
    together with the updated hours dict (the Python code mutates the dict
    in place). -/
def genShiftsForDayMain (emps : List Employee) (day : Nat) (date : Date)
    (open_time close_time : ℚ) (hrs : String → ℚ) :
    List Shift × (String → ℚ) :=
  let openP := open_time
  let closeP := wrapClose open_time close_time
  let total_hours := closeP - openP
  let initialAvail := eligibleEmployees emps day hrs
  if initialAvail.isEmpty then ([], hrs)
  else
    let st := dayLoop emps day date closeP (targetShiftDuration total_hours) 1000
      { shifts := [], hours := hrs, current := openP, last := none }
    (st.shifts, st.hours)

/-- The fallback shift length (`scheduler.py` lines 275-276):
    `min(total_hours_available, max(remaining_hours, 1.0), 8.0)`, raised
    back to at least one hour when the day has at least one hour (a no-op,
    since the minimum of the three quantities is then already at least
    one). -/
def fallbackDuration (total_hours_available remaining_hours : ℚ) : ℚ :=
  let sd0 := min total_hours_available (min (max remaining_hours 1) 8)
  if total_hours_available ≥ 1 then max sd0 1 else sd0

/-- The final fallback block of `_generate_shifts_for_day` (`scheduler.py`
    lines 258-289), reached when the main loop produced no shift.  Note that
    `date_only` there is a `datetime.date` (`date.date()`), so the
    membership tests against the `datetime`-keyed `unavailable_dates` list
    and `unavailable_times_by_date` dict compare a `PyDate.dateOnly` key. -/
def fallbackShifts (emps : List Employee) (day : Nat) (date : Date)
    (open_time close_time : ℚ) (hrs : String → ℚ) :
    List Shift × (String → ℚ) :=
  let openP := open_time
  let closeP := wrapClose open_time close_time
  let available_fallback := emps.filter (fun e =>
    e.can_work day && !(e.unavailable_days.contains day) &&
    !(e.unavailable_dates.contains (PyDate.dateOnly date) &&
      !(dictGet (PyDate.dateOnly date) e.unavailable_times_by_date).isSome))
  match available_fallback with
  | [] => ([], hrs)
  | e :: _ =>
    let total_hours_available := closeP - openP
    if total_hours_available > 0 then
      let remaining_hours := e.max_hours_per_month - hrs e.name
      let shift_duration := fallbackDuration total_hours_available remaining_hours
      if shift_duration > 0 then
        let endP := min (openP + shift_duration) closeP
        let shift : Shift :=
          { employee_name := e.name, day := day, start_time := open_time,
            end_time := timeOfDay endP, date := some date }
        ([shift], updateHours hrs e.name (hrs e.name + shift.duration_hours))
      else ([], hrs)
    else ([], hrs)

/-- `_generate_shifts_for_day` (`scheduler.py` lines 72-290): the main part,
    then the fallback when no shift was produced.  The early return on an
    empty initial eligible set (line 106) bypasses the fallback, which
    `genShiftsForDayMain` reproduces by returning `([], hrs)` before the
    loop, in which case the fallback here receives the untouched state only
    if the initial eligible set was non-empty. -/
def genShiftsForDay (emps : List Employee) (day : Nat) (date : Date)
    (open_time close_time : ℚ) (hrs : String → ℚ) :
    List Shift × (String → ℚ) :=
  let initialAvail := eligibleEmployees emps day hrs
  if initialAvail.isEmpty then ([], hrs)
  else
    let res := genShiftsForDayMain emps day date open_time close_time hrs
    if res.1.isEmpty then fallbackShifts emps day date open_time close_time res.2
    else res

/-- The per-date loop of `generate_schedule` (`scheduler.py` lines 38-57):
    skip closed dates (`is_open` false, or `get_hours` returning the closed
    marker), otherwise run the day generator and append its shifts,
    threading the hours dict. -/
def scheduleFold (emps : List Employee) (sh : StoreHours) :
    List Date → List Shift × (String → ℚ) → List Shift × (String → ℚ)
  | [], acc => acc
  | d :: rest, (ss, hrs) =>
    let day_of_week := pyWeekday d
    if sh.is_open day_of_week (some d) then
      match sh.get_hours day_of_week (some d) with
      | none => scheduleFold emps sh rest (ss, hrs)
      | some (open_time, close_time) =>
        let res := genShiftsForDay emps day_of_week d open_time close_time hrs
        scheduleFold emps sh rest (ss ++ res.1, res.2)
    else scheduleFold emps sh rest (ss, hrs)

/-- `ShiftScheduler.generate_schedule` (`scheduler.py` lines 18-59): iterate
    the dates of the month with the hours dict initialized to zero for
    every employee. -/
def generate_schedule (emps : List Employee) (sh : StoreHours) (year month : Nat) :
    Schedule :=
  { month := month, year := year,
    shifts := (scheduleFold emps sh (getDatesInMonth year month)
      ([], fun _ => 0)).1 }

/-! ### Association-list facts -/

set_option maxRecDepth 20000

/-- The Python membership test `k in d` on a dict agrees with
    `d.get(k) is not None`: key membership equals definedness of the
    lookup. -/
theorem contains_keys_eq_isSome {κ α : Type} [DecidableEq κ] (k : κ)
    (l : List (κ × α)) : decide (k ∈ l.map Prod.fst) = (dictGet k l).isSome := by
  induction l with
  | nil => rfl
  | cons kv t ih =>
    by_cases h : kv.1 = k
    · subst h
      simp [dictGet, List.find?]
    · have h' : ¬(k = kv.1) := fun hk => h hk.symm
      have hb : (k == kv.1) = false := beq_eq_false_iff_ne.mpr h'
      simpa [dictGet, List.find?, h, h', hb] using ih

/-! ### Concrete scenario inputs -/

/-- Scenario B roster: one employee with a 1000-hour cap and no
    availability restrictions. -/
def scenarioB_employee : Employee := { name := "A", max_hours_per_month := 1000 }

/-- Scenario B store hours: open 09:00-15:00 every weekday of the week. -/
def scenarioB_store : StoreHours :=
  { hours := [(0, (9, 15)), (1, (9, 15)), (2, (9, 15)), (3, (9, 15)),
              (4, (9, 15)), (5, (9, 15)), (6, (9, 15))] }

/-- 2024-06-03, a Monday (`pyWeekday` 0). -/
def mondayJun3 : Date := ⟨2024, 6, 3⟩

/-- A store closed by default, with a single open date override
    10:00-20:00 on 2024-06-03. -/
def storeTenToTwenty : StoreHours := { date_overrides := [(mondayJun3, some (10, 20))] }

/-- Scenario C roster: two employees, both fully available, both
    preferring Monday. -/
def scenarioC_emp1 : Employee := { name := "A", preferred_days := [0] }

/-- Second scenario C employee. -/
def scenarioC_emp2 : Employee := { name := "B", preferred_days := [0] }

/-- Roster for the cap-overshoot run: a single employee with a 5-hour
    monthly cap. -/
def capFive_employee : Employee := { name := "A", max_hours_per_month := 5 }

/-- Roster head for the fallback run: wholly unavailable on 2024-06-03
    (whole-day unavailable mark, no time window). -/
def fallback_empA : Employee := { name := "A", unavailable_dates := [PyDate.dtime mondayJun3] }

/-- Roster tail for the fallback run: available on 2024-06-03 only inside
    10:00-10:30, hence not wholly unavailable, but never schedulable by the
    main loop. -/
def fallback_empB : Employee :=
  { name := "B", available_times_by_date := [(PyDate.dtime mondayJun3, (10, 21/2))] }

/-- An employee with a date-specific unavailable window 12:00-14:00 on
    2024-06-03 recorded in `unavailable_times_by_date` only — exactly the
    shape `schedule_app.py` creates when a timed "Unavailable" date
    preference is set (it writes the times dict and not the
    `unavailable_dates` list). -/
def dateWindow_emp : Employee :=
  { name := "C", unavailable_times_by_date := [(PyDate.dtime mondayJun3, (12, 14))] }

/-! ### The claims -/

/-- C4: `get_hours` returns a date override verbatim whenever one exists
    for the supplied date (a closed override included), otherwise the
    weekday default (absence meaning closed), and `is_open` is exactly the
    boolean view `(get_hours ...).isSome` of that same precedence. -/
theorem claim4_get_hours_precedence_is_open :
    ∀ (sh : StoreHours) (day : Nat) (d : Date),
      (∀ v, dictGet d sh.date_overrides = some v → sh.get_hours day (some d) = v) ∧
      (dictGet d sh.date_overrides = none →
        sh.get_hours day (some d) = dictGet day sh.hours) ∧
      sh.get_hours day none = dictGet day sh.hours ∧
      (∀ od : Option Date, sh.is_open day od = (sh.get_hours day od).isSome) := by
  intro sh day d
  refine ⟨?_, ?_, rfl, ?_⟩
  · intro v hv
    simp [StoreHours.get_hours, hv]
  · intro hv
    simp [StoreHours.get_hours, hv]
  · intro od
    cases od with
    | none => simp [StoreHours.is_open, StoreHours.get_hours, contains_keys_eq_isSome]
    | some d' =>
      cases hh : dictGet d' sh.date_overrides with
      | some v => simp [StoreHours.is_open, StoreHours.get_hours, hh]
      | none => simp [StoreHours.is_open, StoreHours.get_hours, hh, contains_keys_eq_isSome]

/-- Witness for C4 at a concrete store: the closed override on 2024-06-03
    is returned verbatim over an open Monday default. -/
theorem claim4_witness :
    StoreHours.get_hours
      { hours := [(0, (9, 15))], date_overrides := [(mondayJun3, none)] } 0
      (some mondayJun3) = none :=
  (claim4_get_hours_precedence_is_open
    { hours := [(0, (9, 15))], date_overrides := [(mondayJun3, none)] } 0 mondayJun3).1
    none (by with_unfolding_all decide)

/-- The availability cascade exactly as the specification words it (§4.3
    rules 1-3): rule 1 fires only for a whole-day unavailable mark with no
    accompanying time window; rule 2 fires whenever the employee has an
    unavailable time window for the date; rule 3 for an available-only
    window; then the weekday rules.  Written here only to compare with the
    behaviour of `Employee.is_available_at_time` as implemented. -/
def claimAvailabilityCascade (e : Employee) (day : Nat) (start_time end_time : ℚ)
    (date : Option Date) : Bool :=
  match date with
  | some dt =>
    if e.unavailable_dates.contains (PyDate.dtime dt) &&
        !(dictGet (PyDate.dtime dt) e.unavailable_times_by_date).isSome then
      false
    else
      match dictGet (PyDate.dtime dt) e.unavailable_times_by_date with
      | some (us, ue) => !(times_overlap start_time end_time us ue)
      | none =>
        match dictGet (PyDate.dtime dt) e.available_times_by_date with
        | some (as', ae) => is_within_range start_time end_time as' ae
        | none => e.isAvailableWeekday day start_time end_time
  | none => e.isAvailableWeekday day start_time end_time

/-- C3: the implemented `is_available_at_time` consults a date's
    unavailable time window only when the date is also in the whole-day
    `unavailable_dates` list, so an employee holding only an
    `unavailable_times_by_date` entry of 12:00-14:00 for 2024-06-03 (the
    shape the application layer stores for a timed unavailability) is
    reported available for the overlapping candidate 12:00-13:00, while the
    claimed precedence order (rule 2) reports unavailable. -/
theorem claim3_date_unavailable_window_ignored :
    Employee.is_available_at_time dateWindow_emp 0 12 13 (some mondayJun3) = true ∧
    claimAvailabilityCascade dateWindow_emp 0 12 13 (some mondayJun3) = false := by
  with_unfolding_all decide

/-- The minimum-length rejection formula exactly as the claim words it:
    rejected iff the duration is below the employee minimum and the
    leniency exception (first shift of the day, and 80% coverage or
    remaining below the minimum, and duration at least one hour) does not
    apply.  Written here only to compare with `lengthCheckRejects`. -/
def claimLengthRejects (minShift : ℚ) (shiftsEmpty : Bool) (d rt : ℚ) : Bool :=
  decide (d < minShift) &&
    !(shiftsEmpty && (decide (d ≥ rt * (4/5)) || decide (rt < minShift)) &&
      decide (d ≥ 1))

/-- Counterexample for C5: with an employee minimum of half an hour, a
    first-shift candidate of 0.9h against 1h remaining meets the minimum
    (so the claim accepts it), yet the implemented check rejects it: the
    one-hour floor of the leniency branch rejects every sub-hour candidate
    whenever the leniency condition holds, even one at or above the
    minimum. -/
theorem claim5_counterexample :
    lengthCheckRejects (1/2) true (9/10) 1 = true ∧
    claimLengthRejects (1/2) true (9/10) 1 = false := by
  with_unfolding_all decide

/-- C5 (amended): the claimed equivalence holds provided the employee's
    minimum shift length is at least 1 hour (as it is for every
    configuration the claim's 80%/minimum wording contemplates); in general
    the check additionally rejects any candidate below one hour when the
    first-shift leniency condition holds, even if it meets the employee's
    minimum. -/
theorem claim5_amended_length_check :
    ∀ (minShift : ℚ), 1 ≤ minShift → ∀ (shiftsEmpty : Bool) (d rt : ℚ),
      lengthCheckRejects minShift shiftsEmpty d rt =
        claimLengthRejects minShift shiftsEmpty d rt := by
  intro minShift hmin shiftsEmpty d rt
  cases shiftsEmpty with
  | false => simp [lengthCheckRejects, allowShortShift, claimLengthRejects]
  | true =>
    by_cases hc : (decide (d ≥ rt * (4/5)) || decide (rt < minShift)) = true
    · by_cases hd1 : d < 1
      · have hdm : d < minShift := lt_of_lt_of_le hd1 hmin
        simp [lengthCheckRejects, allowShortShift, claimLengthRejects, hc, hd1, hdm,
          not_le.mpr hd1]
      · have hd1' : (1:ℚ) ≤ d := not_lt.mp hd1
        simp [lengthCheckRejects, allowShortShift, claimLengthRejects, hc, hd1, hd1']
    · simp [lengthCheckRejects, allowShortShift, claimLengthRejects, hc]

/-- Witness for the amended C5 at a concrete input: minimum 4h, first shift
    of the day, candidate 2h, remaining 3h. -/
theorem claim5_witness :
    (1:ℚ) ≤ 4 ∧
      lengthCheckRejects 4 true 2 3 = claimLengthRejects 4 true 2 3 :=
  ⟨by norm_num, claim5_amended_length_check 4 (by norm_num) true 2 3⟩

/-- C1: evaluation exhibiting a monthly-cap overshoot produced by the main
    day-filling loop, not by the last-resort fallback.  With one employee
    capped at 5 hours and the store open 10:00-20:00 on 2024-06-03, the
    main loop itself (fallback never reached, as the second conjunct shows
    by running the loop without its fallback block) assigns a single
    10-hour shift: the candidate-duration list contains the bare remaining
    day time regardless of the remaining monthly budget, so the employee's
    accumulated hours reach 10, double the cap. -/
theorem claim1_cap_exceeded_by_main_loop :
    (generate_schedule [capFive_employee] storeTenToTwenty 2024 6).shifts =
      [{ employee_name := "A", day := 0, start_time := 10, end_time := 20,
         date := some mondayJun3 }] ∧
    (genShiftsForDayMain [capFive_employee] 0 mondayJun3 10 20 (fun _ => 0)).1 =
      [{ employee_name := "A", day := 0, start_time := 10, end_time := 20,
         date := some mondayJun3 }] ∧
    Schedule.get_total_hours_for_employee
      (generate_schedule [capFive_employee] storeTenToTwenty 2024 6) "A" = 10 ∧
    capFive_employee.max_hours_per_month = 5 := by
  with_unfolding_all decide

/-- C2: evaluation of Scenario C.  Store open 10:00-20:00 on 2024-06-03,
    two fully available employees both preferring Monday: the code produces
    a single 10-hour shift for the first employee, not two contiguous
    5-hour shifts — the descending candidate-duration list tries the whole
    remaining day first and nothing enforces the computed 5-hour split or
    the 8-hour per-shift maximum. -/
theorem claim2_scenarioC_single_ten_hour_shift :
    (generate_schedule [scenarioC_emp1, scenarioC_emp2] storeTenToTwenty 2024 6).shifts =
      [{ employee_name := "A", day := 0, start_time := 10, end_time := 20,
         date := some mondayJun3 }] := by
  with_unfolding_all decide

/-- C7: evaluation of the last-resort fallback.  Employee "A" carries a
    whole-day unavailable mark for 2024-06-03 and employee "B" is merely
    window-restricted (so "B" is the first employee not wholly unavailable
    for that date, and the main loop places nothing, as the second conjunct
    shows).  The fallback nevertheless assigns the day to "A": its filter
    compares a `datetime.date` key against `datetime` entries, a test that
    never succeeds, so whole-day date unavailability is not excluded. -/
theorem claim7_fallback_ignores_date_unavailability :
    (generate_schedule [fallback_empA, fallback_empB] storeTenToTwenty 2024 6).shifts =
      [{ employee_name := "A", day := 0, start_time := 10, end_time := 18,
         date := some mondayJun3 }] ∧
    (genShiftsForDayMain [fallback_empA, fallback_empB] 0 mondayJun3 10 20
      (fun _ => 0)).1 = [] ∧
    fallback_empA.unavailable_dates.contains (PyDate.dtime mondayJun3) = true ∧
    (dictGet (PyDate.dtime mondayJun3)
      fallback_empA.unavailable_times_by_date).isSome = false := by
  with_unfolding_all decide

/-- C9: Scenario B evaluated.  One employee with a 1000-hour cap and no
    restrictions, store open 09:00-15:00 every day of September 2024 (a
    30-day month): exactly one 6-hour shift per day, all for that employee,
    30 shifts and 180 total hours. -/
theorem claim9_scenarioB_daily_shift_schedule :
    (generate_schedule [scenarioB_employee] scenarioB_store 2024 9).shifts.map
        (fun s => (s.employee_name, s.day, s.start_time, s.end_time, s.date)) =
      (getDatesInMonth 2024 9).map (fun d => ("A", pyWeekday d, (9:ℚ), (15:ℚ), some d)) ∧
    (generate_schedule [scenarioB_employee] scenarioB_store 2024 9).shifts.length = 30 ∧
    Schedule.get_total_hours_for_employee
      (generate_schedule [scenarioB_employee] scenarioB_store 2024 9) "A" = 180 := by
  with_unfolding_all decide

/-! ### Anchored positions and the placement chain -/

/-- Anchoring a time of day against the day's opening time: a time before
    the open time is read as belonging to the next calendar day (the wrap
    correction of the specification). -/
def anchor (o t : ℚ) : ℚ := if t < o then t + 24 else t

/-- Anchored start position of a shift. -/
def aStart (o : ℚ) (s : Shift) : ℚ := anchor o s.start_time

/-- Anchored end position of a shift: its anchored start plus its
    wrap-corrected duration. -/
def aEnd (o : ℚ) (s : Shift) : ℚ := aStart o s + s.duration_hours

/-- The shifts of one day, laid out left to right: each shift occupies a
    position interval `[p, q]` with `q - p < 24`, starting no earlier than
    `lo`, storing the corresponding times of day, and the chain ends at or
    before the cursor `c`. -/
def ShiftChain (lo : ℚ) : List Shift → ℚ → Prop
  | [], c => lo ≤ c
  | s :: rest, c => ∃ p q, lo ≤ p ∧ p ≤ q ∧ q - p < 24 ∧
      s.start_time = timeOfDay p ∧ s.end_time = timeOfDay q ∧ ShiftChain q rest c

/-- `timeOfDay` fixes values already in `[0, 24)`. -/
theorem timeOfDay_eq_self {q : ℚ} (h0 : 0 ≤ q) (h24 : q < 24) : timeOfDay q = q := by
  have hfl : ⌊q / 24⌋ = 0 := by
    rw [Int.floor_eq_zero_iff]
    constructor
    · positivity
    · rw [div_lt_one (by norm_num : (0:ℚ) < 24)]
      simpa using h24
  simp [timeOfDay, hfl]

/-- Values in `[0, 48)` have `timeOfDay` in `[0, 24)`. -/
theorem timeOfDay_bounds {q : ℚ} (h0 : 0 ≤ q) (h48 : q < 48) :
    0 ≤ timeOfDay q ∧ timeOfDay q < 24 := by
  by_cases h : q < 24
  · rw [timeOfDay_eq_self h0 h]
    exact ⟨h0, h⟩
  · push_neg at h
    have hfl : ⌊q / 24⌋ = 1 := by
      rw [Int.floor_eq_iff]
      constructor
      · push_cast
        rw [le_div_iff (by norm_num : (0:ℚ) < 24)]
        linarith
      · push_cast
        rw [div_lt_iff (by norm_num : (0:ℚ) < 24)]
        linarith
    rw [timeOfDay, hfl]
    push_cast
    constructor <;> linarith

/-- Anchoring inverts `timeOfDay` on the window `[o, o + 24)`. -/
theorem anchor_timeOfDay {o p : ℚ} (ho0 : 0 ≤ o) (ho24 : o < 24)
    (hop : o ≤ p) (hp : p < o + 24) : anchor o (timeOfDay p) = p := by
  by_cases h : p < 24
  · rw [timeOfDay_eq_self (le_trans ho0 hop) h, anchor, if_neg (not_lt.mpr hop)]
  · push_neg at h
    have hfl : ⌊p / 24⌋ = 1 := by
      rw [Int.floor_eq_iff]
      constructor
      · push_cast
        rw [le_div_iff (by norm_num : (0:ℚ) < 24)]
        linarith
      · push_cast
        rw [div_lt_iff (by norm_num : (0:ℚ) < 24)]
        linarith
    rw [timeOfDay, hfl]
    push_cast
    rw [anchor, if_pos (by linarith)]
    ring

/-- The stored times of day of a placement determine its wrap-corrected
    duration: it is exactly the position difference. -/
theorem durationHours_timeOfDay {p q : ℚ} (hpq : p ≤ q) (h24 : q - p < 24) :
    durationHours (timeOfDay p) (timeOfDay q) = q - p := by
  have hdiv : p / 24 ≤ q / 24 := by
    apply div_le_div_of_nonneg_right hpq (by norm_num) |>.trans_eq rfl
  have hab : ⌊p / 24⌋ ≤ ⌊q / 24⌋ := Int.floor_le_floor hdiv
  have hb1 : ⌊q / 24⌋ ≤ ⌊p / 24⌋ + 1 := by
    have : q / 24 < p / 24 + 1 := by
      rw [div_add' _ _ _ (by norm_num : (24:ℚ) ≠ 0)] at *
      rw [div_lt_div_iff (by norm_num : (0:ℚ) < 24) (by norm_num : (0:ℚ) < 24)]
      ring_nf
      linarith
    calc ⌊q / 24⌋ ≤ ⌊p / 24 + 1⌋ := Int.floor_le_floor this.le
    _ = ⌊p / 24⌋ + 1 := by
        exact_mod_cast Int.floor_add_int (p / 24) 1
  rcases (by omega : ⌊q / 24⌋ = ⌊p / 24⌋ ∨ ⌊q / 24⌋ = ⌊p / 24⌋ + 1) with hcase | hcase
  · rw [timeOfDay, timeOfDay, hcase, durationHours, if_neg (by push_cast; linarith)]
    push_cast
    ring
  · rw [timeOfDay, timeOfDay, hcase, durationHours, if_pos (by push_cast; linarith)]
    push_cast
    ring

/-- A chain ends no earlier than it starts. -/
theorem ShiftChain.le {lo c : ℚ} : ∀ {l : List Shift}, ShiftChain lo l c → lo ≤ c
  | [], h => h
  | _ :: _, ⟨_, _, hlp, hpq, _, _, _, hrest⟩ =>
    le_trans hlp (le_trans hpq hrest.le)

/-- Relaxing the cursor bound of a chain. -/
theorem ShiftChain.mono {lo c c' : ℚ} (hcc : c ≤ c') :
    ∀ {l : List Shift}, ShiftChain lo l c → ShiftChain lo l c'
  | [], h => le_trans h hcc
  | _ :: _, ⟨p, q, hlp, hpq, h24, hs, he, hrest⟩ =>
    ⟨p, q, hlp, hpq, h24, hs, he, hrest.mono hcc⟩

/-- Appending one placement `[p, q]` at or after the chain's cursor. -/
theorem ShiftChain.append {lo c p q : ℚ} {s : Shift}
    (hcp : c ≤ p) (hpq : p ≤ q) (h24 : q - p < 24)
    (hs : s.start_time = timeOfDay p) (he : s.end_time = timeOfDay q) :
    ∀ {l : List Shift}, ShiftChain lo l c → ShiftChain lo (l ++ [s]) q
  | [], h => ⟨p, q, le_trans h hcp, hpq, h24, hs, he, le_refl q⟩
  | t :: rest, ⟨p', q', hlp, hpq', h24', hs', he', hrest⟩ =>
    ⟨p', q', hlp, hpq', h24', hs', he',
      ShiftChain.append hcp hpq h24 hs he hrest⟩

/-- From a chain inside a day window, read off the anchored-interval facts:
    the shifts hold their positions through `aStart`/`aEnd`, stay inside
    `[lo, c]`, have non-negative durations, and are pairwise ordered end
    before start. -/
theorem ShiftChain.props {o cP : ℚ} (ho0 : 0 ≤ o) (ho24 : o < 24)
    (hcap : cP < o + 24) :
    ∀ {l : List Shift} {lo c : ℚ}, ShiftChain lo l c → o ≤ lo → c ≤ cP →
      (∀ s ∈ l, lo ≤ aStart o s ∧ aEnd o s ≤ c ∧ 0 ≤ s.duration_hours) ∧
      List.Pairwise (fun a b => aEnd o a ≤ aStart o b) l := by
  intro l
  induction l with
  | nil => exact fun _ _ _ => ⟨by simp, List.Pairwise.nil⟩
  | cons t rest ih =>
    intro lo c hch hol hccap
    obtain ⟨p, q, hlp, hpq, h24, hs, he, hrest⟩ := hch
    have hop : o ≤ p := le_trans hol hlp
    have hqc : q ≤ c := hrest.le
    have hpcap : p < o + 24 := lt_of_le_of_lt (le_trans hpq (le_trans hqc hccap)) hcap
    have hastart : aStart o t = p := by
      rw [aStart, hs, anchor_timeOfDay ho0 ho24 hop hpcap]
    have hdur : t.duration_hours = q - p := by
      rw [Shift.duration_hours, hs, he, durationHours_timeOfDay hpq h24]
    have haend : aEnd o t = q := by
      rw [aEnd, hastart, hdur]; ring
    obtain ⟨hmem, hpw⟩ := ih hrest (le_trans hop hpq) hccap
    refine ⟨?_, ?_⟩
    · intro s hsmem
      rcases List.mem_cons.mp hsmem with rfl | hsmem
      · exact ⟨hastart ▸ hlp, haend ▸ hqc, hdur ▸ by linarith⟩
      · obtain ⟨h1, h2, h3⟩ := hmem s hsmem
        exact ⟨le_trans (le_trans hlp hpq) h1, h2, h3⟩
    · refine List.Pairwise.cons ?_ hpw
      intro s hsmem
      obtain ⟨h1, _, _⟩ := hmem s hsmem
      rw [haend]
      exact h1

/-! ### Bounds on the placement helpers -/

/-- Elements of `sorted(set(l), reverse=True)` come from `l`. -/
theorem mem_sortedDescDedup {x : ℚ} {l : List ℚ} (h : x ∈ sortedDescDedup l) :
    x ∈ l := by
  have h1 : x ∈ l.dedup := (List.perm_insertionSort _ l.dedup).mem_iff.mp h
  exact List.mem_dedup.mp h1

/-- Candidate durations are non-negative whenever the target length, the
    remaining budget and the remaining time are. -/
theorem potentialDurations_nonneg {sd rh rt d : ℚ} (hsd : 0 ≤ sd) (hrh : 0 ≤ rh)
    (hrt : 0 ≤ rt) (h : d ∈ potentialDurations sd rh rt) : 0 ≤ d := by
  have h3 : d = min sd (min rh rt) ∨ d = min rh rt ∨ d = rt := by
    simpa using mem_sortedDescDedup h
  rcases h3 with rfl | rfl | rfl
  · exact le_min hsd (le_min hrh hrt)
  · exact le_min hrh hrt
  · exact hrt

/-- Membership in the sorted eligible list: the employee comes from the
    roster and is below the monthly cap. -/
theorem mem_sortedEligible {emps : List Employee} {day : Nat} {date : Date}
    {hrs : String → ℚ} {e : Employee} (h : e ∈ sortedEligible emps day date hrs) :
    e ∈ emps ∧ hrs e.name < e.max_hours_per_month := by
  have h1 : e ∈ eligibleEmployees emps day hrs :=
    (List.perm_insertionSort _ _).mem_iff.mp h
  have h2 := List.mem_filter.mp h1
  refine ⟨h2.1, ?_⟩
  have := h2.2
  simp only [Bool.and_eq_true, decide_eq_true_eq] at this
  exact this.2

/-- A successful duration search yields an end position between the cursor
    and the close position. -/
theorem tryDurations_le {e : Employee} {day : Nat} {date : Date} {se : Bool}
    {current closeP rt endP : ℚ} :
    ∀ {durs : List ℚ}, (∀ d ∈ durs, 0 ≤ d) → current ≤ closeP →
      tryDurations e day date se current closeP rt durs = some endP →
      current ≤ endP ∧ endP ≤ closeP
  | [], _, _, h => by cases h
  | d :: rest, hds, hcc, h => by
    have hd0 : 0 ≤ d := hds d (List.mem_cons_self d rest)
    have hrest : ∀ x ∈ rest, 0 ≤ x := fun x hx => hds x (List.mem_cons_of_mem d hx)
    simp only [tryDurations] at h
    split at h
    · exact tryDurations_le hrest hcc h
    · split at h
      · split at h
        · exact tryDurations_le hrest hcc h
        · split at h
          · cases h
            exact ⟨hcc, le_refl _⟩
          · exact tryDurations_le hrest hcc h
      · next hngt =>
        split at h
        · cases h
          exact ⟨by linarith, not_lt.mp hngt⟩
        · exact tryDurations_le hrest hcc h

/-- A successful employee walk yields an end position between the cursor
    and the close position. -/
theorem tryEmployees_le {day : Nat} {date : Date} {se : Bool}
    {current closeP rt sd : ℚ} {hrs : String → ℚ} {e : Employee} {endP : ℚ}
    (hsd : 0 ≤ sd) (hrt : 0 ≤ rt) (hcc : current ≤ closeP) :
    ∀ {l : List Employee}, (∀ x ∈ l, hrs x.name < x.max_hours_per_month) →
      tryEmployees day date se current closeP rt sd hrs l = some (e, endP) →
      current ≤ endP ∧ endP ≤ closeP
  | [], _, h => by cases h
  | x :: rest, hl, h => by
    have hx : hrs x.name < x.max_hours_per_month := hl x (List.mem_cons_self x rest)
    have hrest : ∀ y ∈ rest, hrs y.name < y.max_hours_per_month :=
      fun y hy => hl y (List.mem_cons_of_mem x hy)
    simp only [tryEmployees] at h
    split at h
    · next heq =>
      cases h
      refine tryDurations_le (fun d hd => potentialDurations_nonneg hsd ?_ hrt hd)
        hcc heq
      linarith
    · exact tryEmployees_le hsd hrt hcc hrest h

/-- A successful relaxed pass yields an end position between the cursor and
    the close position, provided minimum shift lengths are non-negative. -/
theorem relaxedPass_le {day : Nat} {date : Date} {current closeP rt : ℚ}
    {e : Employee} {endP : ℚ} (hcc : current ≤ closeP) :
    ∀ {l : List Employee}, (∀ x ∈ l, 0 ≤ x.min_hours_per_shift) →
      relaxedPass day date current closeP rt l = some (e, endP) →
      current ≤ endP ∧ endP ≤ closeP
  | [], _, h => by cases h
  | x :: rest, hl, h => by
    have hx : 0 ≤ x.min_hours_per_shift := hl x (List.mem_cons_self x rest)
    have hrest : ∀ y ∈ rest, 0 ≤ y.min_hours_per_shift :=
      fun y hy => hl y (List.mem_cons_of_mem x hy)
    simp only [relaxedPass] at h
    split at h
    · split at h
      · cases h
        exact ⟨le_min (by linarith) hcc, min_le_right _ _⟩
      · exact relaxedPass_le hcc hrest h
    · exact relaxedPass_le hcc hrest h

/-! ### The day-loop invariant -/

/-- Invariant carried through the day loop: the produced shifts form a
    placement chain from the opening position to the cursor, the cursor
    stays at or before the close position, and every shift carries the
    day's weekday and date. -/
def DayInv (day : Nat) (date : Date) (openP closeP : ℚ) (st : DayState) : Prop :=
  ShiftChain openP st.shifts st.current ∧ st.current ≤ closeP ∧
    ∀ s ∈ st.shifts, s.day = day ∧ s.date = some date

/-- Materializing a shift at the cursor preserves the invariant when its
    end position lies between the cursor and the close position. -/
theorem placeShift_inv {day : Nat} {date : Date} {openP closeP : ℚ} {st : DayState}
    {e : Employee} {endP : ℚ} (hspan : closeP - openP < 24)
    (hinv : DayInv day date openP closeP st)
    (h1 : st.current ≤ endP) (h2 : endP ≤ closeP) :
    DayInv day date openP closeP (placeShift st e day date endP) := by
  obtain ⟨hch, hcc, hmeta⟩ := hinv
  have hoc : openP ≤ st.current := hch.le
  refine ⟨?_, h2, ?_⟩
  · exact hch.append (le_refl _) h1 (by linarith) rfl rfl
  · intro s hs
    rcases List.mem_append.mp hs with hs | hs
    · exact hmeta s hs
    · rcases List.mem_singleton.mp hs with rfl
      exact ⟨rfl, rfl⟩

/-- The day loop preserves the invariant, for any fuel, as long as the day
    window spans less than 24 hours, the target shift length is
    non-negative and the roster's minimum shift lengths are
    non-negative. -/
theorem dayLoop_inv {emps : List Employee} {day : Nat} {date : Date}
    {openP closeP sd : ℚ} (hspan : closeP - openP < 24) (hsd : 0 ≤ sd)
    (hmins : ∀ e ∈ emps, 0 ≤ e.min_hours_per_shift) :
    ∀ (fuel : Nat) (st : DayState), DayInv day date openP closeP st →
      DayInv day date openP closeP (dayLoop emps day date closeP sd fuel st) := by
  intro fuel
  induction fuel with
  | zero => intro st h; simpa [dayLoop] using h
  | succ n ih =>
    intro st h
    have hsorted := fun (x : Employee)
      (hx : x ∈ sortedEligible emps day date st.hours) => mem_sortedEligible hx
    simp only [dayLoop]
    split
    · next hlt =>
      split
      · exact h
      · split
        · exact h
        · split
          · next e endP heq =>
            exact ih _ (placeShift_inv hspan h
              (tryEmployees_le hsd (by linarith) h.2.1
                (fun x hx => (hsorted x hx).2) heq).1
              (tryEmployees_le hsd (by linarith) h.2.1
                (fun x hx => (hsorted x hx).2) heq).2)
          · split
            · next e endP heq =>
              have heq' : relaxedPass day date st.current closeP
                  (closeP - st.current) (sortedEligible emps day date st.hours) =
                  some (e, endP) := by
                split at heq
                · exact heq
                · cases heq
              have hb := relaxedPass_le h.2.1
                (fun x hx => hmins x (hsorted x hx).1) heq'
              exact ih _ (placeShift_inv hspan h hb.1 hb.2)
            · split
              · exact h
              · next hcond =>
                refine ih _ ⟨h.1.mono (by linarith), ?_, h.2.2⟩
                have hb : ¬(st.current + 1/4 ≥ closeP) := by
                  intro hge
                  exact hcond (by
                    simp only [Bool.or_eq_true, decide_eq_true_eq]
                    exact Or.inr hge)
                linarith [not_le.mp hb]
    · exact h

/-! ### Day-level structure -/

/-- The wrap-corrected close position lies within `[open, open + 24)` for
    genuine times of day. -/
theorem wrapClose_facts {o c : ℚ} (ho0 : 0 ≤ o) (ho24 : o < 24) (hc0 : 0 ≤ c)
    (hc24 : c < 24) : o ≤ wrapClose o c ∧ wrapClose o c - o < 24 := by
  rw [wrapClose]
  split
  · constructor <;> linarith
  · next h => exact ⟨not_lt.mp h, by linarith⟩

/-- The target shift length is non-negative for a non-negative day span. -/
theorem targetShiftDuration_nonneg {t : ℚ} (ht : 0 ≤ t) :
    0 ≤ targetShiftDuration t := by
  rw [targetShiftDuration]
  split
  · exact ht
  · apply div_nonneg ht
    have h2 : (2:ℤ) ≤ max 2 (⌊t / 8⌋ + (if t - 8 * (⌊t / 8⌋ : ℚ) > 0 then 1 else 0)) :=
      le_max_left _ _
    exact_mod_cast le_trans (by norm_num : (0:ℤ) ≤ 2) h2

/-- The main part of the day generator satisfies the day invariant: its
    shifts chain from the opening position to a cursor at or before the
    wrap-corrected close, and carry the day's weekday and date. -/
theorem genShiftsForDayMain_inv {emps : List Employee} {day : Nat} {date : Date}
    {open_time close_time : ℚ} {hrs : String → ℚ}
    (ho0 : 0 ≤ open_time) (ho24 : open_time < 24)
    (hc0 : 0 ≤ close_time) (hc24 : close_time < 24)
    (hmins : ∀ e ∈ emps, 0 ≤ e.min_hours_per_shift) :
    ∃ cEnd, ShiftChain open_time
        (genShiftsForDayMain emps day date open_time close_time hrs).1 cEnd ∧
      cEnd ≤ wrapClose open_time close_time ∧
      ∀ s ∈ (genShiftsForDayMain emps day date open_time close_time hrs).1,
        s.day = day ∧ s.date = some date := by
  obtain ⟨hwc1, hwc2⟩ := wrapClose_facts ho0 ho24 hc0 hc24
  simp only [genShiftsForDayMain]
  split
  · exact ⟨open_time, le_refl _, hwc1, by simp⟩
  · have hinv := @dayLoop_inv emps day date open_time (wrapClose open_time close_time)
      (targetShiftDuration (wrapClose open_time close_time - open_time)) hwc2
      (targetShiftDuration_nonneg (by linarith)) hmins 1000
      ⟨[], hrs, open_time, none⟩ ⟨le_refl _, hwc1, by simp⟩
    exact ⟨_, hinv.1, hinv.2.1, hinv.2.2⟩

/-- The fallback block satisfies the same day structure. -/
theorem fallbackShifts_inv {emps : List Employee} {day : Nat} {date : Date}
    {open_time close_time : ℚ} {hrs : String → ℚ}
    (ho0 : 0 ≤ open_time) (ho24 : open_time < 24)
    (hc0 : 0 ≤ close_time) (hc24 : close_time < 24) :
    ∃ cEnd, ShiftChain open_time
        (fallbackShifts emps day date open_time close_time hrs).1 cEnd ∧
      cEnd ≤ wrapClose open_time close_time ∧
      ∀ s ∈ (fallbackShifts emps day date open_time close_time hrs).1,
        s.day = day ∧ s.date = some date := by
  obtain ⟨hwc1, hwc2⟩ := wrapClose_facts ho0 ho24 hc0 hc24
  simp only [fallbackShifts]
  split
  · exact ⟨open_time, le_refl _, hwc1, by simp⟩
  · next e rest heq =>
    split
    · next htot =>
      split
      · next hsd =>
        generalize hq : min (open_time +
            fallbackDuration (wrapClose open_time close_time - open_time)
              (e.max_hours_per_month - hrs e.name))
            (wrapClose open_time close_time) = q
        have hqc : q ≤ wrapClose open_time close_time := hq ▸ min_le_right _ _
        have hoq : open_time ≤ q := hq ▸ le_min (by linarith) hwc1
        refine ⟨q, ⟨open_time, q, le_refl _, hoq, by linarith,
          (timeOfDay_eq_self ho0 ho24).symm, rfl, le_refl _⟩, hqc, ?_⟩
        intro s hs
        rcases List.mem_singleton.mp hs with rfl
        exact ⟨rfl, rfl⟩
      · exact ⟨open_time, le_refl _, hwc1, by simp⟩
    · exact ⟨open_time, le_refl _, hwc1, by simp⟩

/-- The complete day generator (main part plus fallback) satisfies the day
    structure. -/
theorem genShiftsForDay_inv {emps : List Employee} {day : Nat} {date : Date}
    {open_time close_time : ℚ} {hrs : String → ℚ}
    (ho0 : 0 ≤ open_time) (ho24 : open_time < 24)
    (hc0 : 0 ≤ close_time) (hc24 : close_time < 24)
    (hmins : ∀ e ∈ emps, 0 ≤ e.min_hours_per_shift) :
    ∃ cEnd, ShiftChain open_time
        (genShiftsForDay emps day date open_time close_time hrs).1 cEnd ∧
      cEnd ≤ wrapClose open_time close_time ∧
      ∀ s ∈ (genShiftsForDay emps day date open_time close_time hrs).1,
        s.day = day ∧ s.date = some date := by
  obtain ⟨hwc1, hwc2⟩ := wrapClose_facts ho0 ho24 hc0 hc24
  simp only [genShiftsForDay]
  split
  · exact ⟨open_time, le_refl _, hwc1, by simp⟩
  · split
    · exact fallbackShifts_inv ho0 ho24 hc0 hc24
    · exact genShiftsForDayMain_inv ho0 ho24 hc0 hc24 hmins

/-! ### Day and date fields of produced shifts (no validity assumptions) -/

/-- Placement preserves the day/date labelling of the shift list. -/
theorem placeShift_meta {day : Nat} {date : Date} {st : DayState} {e : Employee}
    {endP : ℚ} (h : ∀ s ∈ st.shifts, s.day = day ∧ s.date = some date) :
    ∀ s ∈ (placeShift st e day date endP).shifts, s.day = day ∧ s.date = some date := by
  intro s hs
  rcases List.mem_append.mp hs with hs | hs
  · exact h s hs
  · rcases List.mem_singleton.mp hs with rfl
    exact ⟨rfl, rfl⟩

/-- Every shift the day loop adds carries the day's weekday and date. -/
theorem dayLoop_meta {emps : List Employee} {day : Nat} {date : Date}
    {closeP sd : ℚ} :
    ∀ (fuel : Nat) (st : DayState),
      (∀ s ∈ st.shifts, s.day = day ∧ s.date = some date) →
      ∀ s ∈ (dayLoop emps day date closeP sd fuel st).shifts,
        s.day = day ∧ s.date = some date := by
  intro fuel
  induction fuel with
  | zero => intro st h; simpa [dayLoop] using h
  | succ n ih =>
    intro st h
    simp only [dayLoop]
    split
    · split
      · exact h
      · split
        · exact h
        · split
          · exact ih _ (placeShift_meta h)
          · split
            · exact ih _ (placeShift_meta h)
            · split
              · exact h
              · exact ih _ h
    · exact h

/-- Every shift of the complete day generator carries the day's weekday and
    date (no assumptions on the inputs). -/
theorem genShiftsForDay_meta {emps : List Employee} {day : Nat} {date : Date}
    {open_time close_time : ℚ} {hrs : String → ℚ} :
    ∀ s ∈ (genShiftsForDay emps day date open_time close_time hrs).1,
      s.day = day ∧ s.date = some date := by
  simp only [genShiftsForDay]
  split
  · simp
  · split
    · simp only [fallbackShifts]
      split
      · simp
      · split
        · split
          · intro s hs
            rcases List.mem_singleton.mp hs with rfl
            exact ⟨rfl, rfl⟩
          · simp
        · simp
    · simp only [genShiftsForDayMain]
      split
      · simp
      · exact dayLoop_meta 1000 _ (by simp)

/-! ### Month-level structure -/

/-- Generic invariant transfer through the month fold: any per-shift
    property established by the day generator for every open date of the
    list is carried to the fold's output. -/
theorem scheduleFold_all {emps : List Employee} {sh : StoreHours} {P : Shift → Prop} :
    ∀ (dates : List Date) (acc : List Shift × (String → ℚ)),
      (∀ d ∈ dates, ∀ (o c : ℚ) (hrs : String → ℚ),
        sh.is_open (pyWeekday d) (some d) = true →
        sh.get_hours (pyWeekday d) (some d) = some (o, c) →
        ∀ s ∈ (genShiftsForDay emps (pyWeekday d) d o c hrs).1, P s) →
      (∀ s ∈ acc.1, P s) →
      ∀ s ∈ (scheduleFold emps sh dates acc).1, P s
  | [], _, _, hacc => hacc
  | d :: rest, (ss, hrs), hP, hacc => by
    have hPrest : ∀ d' ∈ rest, ∀ (o c : ℚ) (hrs' : String → ℚ),
        sh.is_open (pyWeekday d') (some d') = true →
        sh.get_hours (pyWeekday d') (some d') = some (o, c) →
        ∀ s ∈ (genShiftsForDay emps (pyWeekday d') d' o c hrs').1, P s :=
      fun d' hd' => hP d' (List.mem_cons_of_mem d hd')
    simp only [scheduleFold]
    split
    · next hopen =>
      split
      · exact scheduleFold_all rest _ hPrest hacc
      · next o c hget =>
        apply scheduleFold_all rest _ hPrest
        intro s hs
        rcases List.mem_append.mp hs with hs | hs
        · exact hacc s hs
        · exact hP d (List.mem_cons_self d rest) o c hrs hopen hget s hs
    · exact scheduleFold_all rest _ hPrest hacc

/-- The windows a `StoreHours` record can ever resolve to: the weekday
    defaults and the open date overrides. -/
def storeWindows (sh : StoreHours) : List (ℚ × ℚ) :=
  sh.hours.map (fun kv => kv.2) ++ sh.date_overrides.filterMap (fun kv => kv.2)

/-- A successful association lookup returns a stored value. -/
theorem dictGet_mem {κ α : Type} [DecidableEq κ] {k : κ} {l : List (κ × α)} {v : α}
    (h : dictGet k l = some v) : ∃ kv ∈ l, kv.2 = v := by
  rw [dictGet] at h
  split at h
  · next kv hfind =>
    cases h
    exact ⟨kv, List.mem_of_find?_eq_some hfind, rfl⟩
  · cases h

/-- Every window `get_hours` resolves is one of the record's stored
    windows. -/
theorem get_hours_mem_storeWindows {sh : StoreHours} {day : Nat} {od : Option Date}
    {w : ℚ × ℚ} (h : sh.get_hours day od = some w) : w ∈ storeWindows sh := by
  rw [StoreHours.get_hours.eq_def] at h
  have hweek : dictGet day sh.hours = some w → w ∈ storeWindows sh := by
    intro hw
    obtain ⟨kv, hkv, hv⟩ := dictGet_mem hw
    exact List.mem_append_left _ (List.mem_map.mpr ⟨kv, hkv, hv⟩)
  cases od with
  | none => exact hweek h
  | some d =>
    cases hov : dictGet d sh.date_overrides with
    | some v =>
      simp only [hov] at h
      subst h
      obtain ⟨kv, hkv, hv⟩ := dictGet_mem hov
      exact List.mem_append_right _ (List.mem_filterMap.mpr ⟨kv, hkv, by rw [hv]⟩)
    | none =>
      simp only [hov] at h
      exact hweek h

/-- C6: for every roster and month (with genuine times of day stored in the
    operating-hours record, and the §7-valid non-negative minimum shift
    lengths), every shift of the generated schedule lies inside its date's
    resolved operating-hours window after wrap correction: the anchored
    start is at or after the resolved open time, and the anchored start
    plus the shift's wrap-corrected duration — its wrap-corrected end — is
    at or before the wrap-corrected close. -/
theorem claim6_shifts_within_operating_window :
    ∀ (emps : List Employee) (sh : StoreHours) (year month : Nat),
      (∀ w ∈ storeWindows sh, 0 ≤ w.1 ∧ w.1 < 24 ∧ 0 ≤ w.2 ∧ w.2 < 24) →
      (∀ e ∈ emps, 0 ≤ e.min_hours_per_shift) →
      ∀ s ∈ (generate_schedule emps sh year month).shifts,
        ∃ (d : Date) (o c : ℚ), s.date = some d ∧
          sh.get_hours (pyWeekday d) (some d) = some (o, c) ∧
          o ≤ aStart o s ∧ aEnd o s ≤ wrapClose o c := by
  intro emps sh year month hw hmins
  simp only [generate_schedule]
  refine @scheduleFold_all emps sh
    (fun s => ∃ (d : Date) (o c : ℚ), s.date = some d ∧
      sh.get_hours (pyWeekday d) (some d) = some (o, c) ∧
      o ≤ aStart o s ∧ aEnd o s ≤ wrapClose o c)
    (getDatesInMonth year month) ([], fun _ => 0) ?_ (by simp)
  intro d hd o c hrs hopen hget s hs
  have hb := hw (o, c) (get_hours_mem_storeWindows hget)
  obtain ⟨cEnd, hch, hce, hmeta⟩ :=
    genShiftsForDay_inv hb.1 hb.2.1 hb.2.2.1 hb.2.2.2 hmins
  have hcap : wrapClose o c < o + 24 := by
    have := (wrapClose_facts hb.1 hb.2.1 hb.2.2.1 hb.2.2.2).2
    linarith
  obtain ⟨hmem, _⟩ := hch.props hb.1 hb.2.1 hcap (le_refl o) hce
  obtain ⟨h1, h2, _⟩ := hmem s hs
  exact ⟨d, o, c, (hmeta s hs).2, hget, h1, le_trans h2 hce⟩

/-- Witness for C6: in the Scenario B schedule, the shift of 2024-09-01
    (a Sunday, weekday 6) is reported inside its resolved window. -/
theorem claim6_witness :
    ∃ (d : Date) (o c : ℚ),
      (⟨"A", 6, 9, 15, some ⟨2024, 9, 1⟩⟩ : Shift).date = some d ∧
      scenarioB_store.get_hours (pyWeekday d) (some d) = some (o, c) ∧
      o ≤ aStart o (⟨"A", 6, 9, 15, some ⟨2024, 9, 1⟩⟩ : Shift) ∧
      aEnd o (⟨"A", 6, 9, 15, some ⟨2024, 9, 1⟩⟩ : Shift) ≤ wrapClose o c :=
  claim6_shifts_within_operating_window [scenarioB_employee] scenarioB_store 2024 9
    (by with_unfolding_all decide) (by with_unfolding_all decide) _
    (by with_unfolding_all decide)

/-- The empty operating-hours record skips every date of the fold. -/
theorem scheduleFold_emptyStore {emps : List Employee} :
    ∀ (dates : List Date) (acc : List Shift × (String → ℚ)),
      scheduleFold emps ⟨[], []⟩ dates acc = acc := by
  intro dates
  induction dates with
  | nil => intro acc; rfl
  | cons d rest ih =>
    intro acc
    cases acc with
    | mk ss hrs => simpa [scheduleFold, StoreHours.is_open, dictGet] using ih (ss, hrs)

/-- C8: a date whose resolved operating hours are closed — a closed date
    override, or an absent weekday default (both resolve to the closed
    marker `none`, a closed override winning over an open weekday default)
    — contributes no shift to the generated schedule, with no error raised
    (the embedded engine is a total function); in particular a store whose
    operating-hours record is empty for every weekday with no date
    overrides yields a schedule with zero shifts for any month. -/
theorem claim8_closed_dates_produce_no_shifts :
    (∀ (emps : List Employee) (sh : StoreHours) (year month : Nat) (d : Date),
      sh.get_hours (pyWeekday d) (some d) = none →
      ∀ s ∈ (generate_schedule emps sh year month).shifts, s.date ≠ some d) ∧
    (∀ (emps : List Employee) (year month : Nat),
      (generate_schedule emps ⟨[], []⟩ year month).shifts = []) := by
  constructor
  · intro emps sh year month d hclosed
    simp only [generate_schedule]
    refine @scheduleFold_all emps sh (fun s => s.date ≠ some d)
      (getDatesInMonth year month) ([], fun _ => 0) ?_ (by simp)
    intro d' hd' o c hrs hopen hget s hs hdate
    have hd'd : s.date = some d' := (genShiftsForDay_meta s hs).2
    rw [hdate] at hd'd
    cases hd'd
    rw [hclosed] at hget
    cases hget
  · intro emps year month
    simp [generate_schedule, scheduleFold_emptyStore]

/-- Witness for C8: with a closed override on Monday 2024-09-02 (whose
    weekday default is open), the shift of 2024-09-01 present in the
    generated schedule is not dated 2024-09-02. -/
theorem claim8_witness :
    ¬((⟨"A", 6, 9, 15, some ⟨2024, 9, 1⟩⟩ : Shift).date = some (⟨2024, 9, 2⟩ : Date)) :=
  claim8_closed_dates_produce_no_shifts.1 [scenarioB_employee]
    { hours := [(0, (9, 15)), (1, (9, 15)), (2, (9, 15)), (3, (9, 15)),
                (4, (9, 15)), (5, (9, 15)), (6, (9, 15))],
      date_overrides := [(⟨2024, 9, 2⟩, none)] }
    2024 9 ⟨2024, 9, 2⟩ (by with_unfolding_all decide) _
    (by with_unfolding_all decide)

/-! ### Per-date decomposition of the month fold -/

/-- The fold's accumulated prefix passes through unchanged. -/
theorem scheduleFold_append {emps : List Employee} {sh : StoreHours} :
    ∀ (dates : List Date) (ss : List Shift) (hrs : String → ℚ),
      (scheduleFold emps sh dates (ss, hrs)).1 =
        ss ++ (scheduleFold emps sh dates ([], hrs)).1 := by
  intro dates
  induction dates with
  | nil => intro ss hrs; simp [scheduleFold]
  | cons d rest ih =>
    intro ss hrs
    simp only [scheduleFold]
    split
    · split
      · exact ih ss hrs
      · rw [ih, List.nil_append, ih ((genShiftsForDay emps (pyWeekday d) d _ _ hrs).1),
          List.append_assoc]
    · exact ih ss hrs

/-- A start date outside the target month collects nothing. -/
theorem datesLoop_not_month {m : Nat} :
    ∀ (fuel : Nat) (cur : Date), cur.month ≠ m → datesLoop m fuel cur = [] := by
  intro fuel cur h
  cases fuel with
  | zero => rfl
  | succ n => simp [datesLoop, h]

/-- Within one collecting run the day components strictly increase, so the
    dates of a month are pairwise distinct. -/
theorem datesLoop_pairwise {m : Nat} :
    ∀ (fuel : Nat) (cur : Date),
      (∀ d ∈ datesLoop m fuel cur, cur.day ≤ d.day) ∧
      List.Pairwise (fun a b : Date => a.day < b.day) (datesLoop m fuel cur) := by
  intro fuel
  induction fuel with
  | zero => intro cur; simp [datesLoop]
  | succ n ih =>
    intro cur
    by_cases hm : cur.month = m
    · simp only [datesLoop, if_pos hm]
      by_cases hd : cur.day < daysInMonth cur.year cur.month
      · have hnext : nextDate cur = ⟨cur.year, cur.month, cur.day + 1⟩ := by
          simp [nextDate, hd]
        obtain ⟨ihmem, ihpw⟩ := ih (nextDate cur)
        have hmem' : ∀ d ∈ datesLoop m n (nextDate cur), cur.day < d.day := by
          intro d hdm
          have h1 := ihmem d hdm
          rw [hnext] at h1
          exact Nat.lt_of_succ_le h1
        refine ⟨?_, List.Pairwise.cons hmem' ihpw⟩
        intro d hdm
        rcases List.mem_cons.mp hdm with rfl | hdm
        · exact le_refl _
        · exact le_of_lt (hmem' d hdm)
      · have hnil : datesLoop m n (nextDate cur) = [] := by
          apply datesLoop_not_month
          rw [nextDate, if_neg hd]
          split
          · next h12 => show 1 ≠ m; omega
          · show cur.month + 1 ≠ m; omega
        simp [hnil]
    · simp [datesLoop, hm]

/-- The dates of a month are pairwise distinct. -/
theorem getDatesInMonth_pairwise_ne (year month : Nat) :
    List.Pairwise (fun a b : Date => a ≠ b) (getDatesInMonth year month) := by
  have h := (@datesLoop_pairwise month 40 (⟨year, month, 1⟩ : Date)).2
  exact h.imp (fun hab heq => by rw [heq] at hab; exact lt_irrefl _ hab)

/-- The fallback block produces at most one shift. -/
theorem fallbackShifts_length {emps : List Employee} {day : Nat} {date : Date}
    {open_time close_time : ℚ} {hrs : String → ℚ} :
    (fallbackShifts emps day date open_time close_time hrs).1.length ≤ 1 := by
  simp only [fallbackShifts]
  split
  · simp
  · split
    · split
      · simp
      · simp
    · simp

/-- The complete day result is the main loop's result, except that when the
    main loop (run on a non-empty initial eligible set) yields nothing the
    fallback contributes at most one shift. -/
theorem genShiftsForDay_main_or_fallback :
    ∀ (emps : List Employee) (day : Nat) (date : Date) (o c : ℚ)
      (hrs : String → ℚ),
      (genShiftsForDay emps day date o c hrs).1 =
        (genShiftsForDayMain emps day date o c hrs).1 ∨
      ((genShiftsForDayMain emps day date o c hrs).1 = [] ∧
        (genShiftsForDay emps day date o c hrs).1.length ≤ 1) := by
  intro emps day date o c hrs
  simp only [genShiftsForDay]
  split
  · next h => left; simp [genShiftsForDayMain, h]
  · split
    · next hEmpty =>
      right
      refine ⟨?_, ?_⟩
      · rwa [List.isEmpty_iff] at hEmpty
      · exact fallbackShifts_length
    · left; rfl

/-- The shifts of one target date inside the month fold form a placement
    chain inside that date's resolved window: the other dates of the month
    are distinct from it and contribute nothing to the filter. -/
theorem scheduleFold_filter_chain {emps : List Employee} {sh : StoreHours} {d : Date}
    (hw : ∀ w ∈ storeWindows sh, 0 ≤ w.1 ∧ w.1 < 24 ∧ 0 ≤ w.2 ∧ w.2 < 24)
    (hmins : ∀ e ∈ emps, 0 ≤ e.min_hours_per_shift) :
    ∀ (dates : List Date), List.Pairwise (fun a b : Date => a ≠ b) dates →
      ∀ (hrs : String → ℚ),
      ∃ o cP cEnd : ℚ, 0 ≤ o ∧ o < 24 ∧ cP < o + 24 ∧ cEnd ≤ cP ∧
        ShiftChain o ((scheduleFold emps sh dates ([], hrs)).1.filter
          (fun s => decide (s.date = some d))) cEnd := by
  intro dates
  induction dates with
  | nil =>
    intro _ hrs
    exact ⟨0, 0, 0, le_refl _, by norm_num, by norm_num, le_refl _,
      by simp [scheduleFold, ShiftChain]⟩
  | cons d1 rest ih =>
    intro hpw hrs
    obtain ⟨hne, hpwrest⟩ := List.pairwise_cons.mp hpw
    simp only [scheduleFold]
    split
    · split
      · exact ih hpwrest hrs
      · next o c hget =>
        rw [List.nil_append, scheduleFold_append, List.filter_append]
        by_cases hd1 : d1 = d
        · subst hd1
          have hfilter1 : (genShiftsForDay emps (pyWeekday d1) d1 o c hrs).1.filter
              (fun s => decide (s.date = some d1)) =
              (genShiftsForDay emps (pyWeekday d1) d1 o c hrs).1 := by
            rw [List.filter_eq_self]
            intro s hs
            simp [(genShiftsForDay_meta s hs).2]
          have hfilter2 : ((scheduleFold emps sh rest
              ([], (genShiftsForDay emps (pyWeekday d1) d1 o c hrs).2)).1.filter
              (fun s => decide (s.date = some d1))) = [] := by
            rw [List.filter_eq_nil]
            intro s hs
            have hP := @scheduleFold_all emps sh (fun s => s.date ≠ some d1) rest
              ([], (genShiftsForDay emps (pyWeekday d1) d1 o c hrs).2)
              (fun d' hd' o' c' hrs' _ _ s' hs' heq => by
                have := (genShiftsForDay_meta s' hs').2
                rw [heq] at this
                cases this
                exact hne _ hd' rfl)
              (by simp) s hs
            simpa using hP
          rw [hfilter1, hfilter2, List.append_nil]
          have hb := hw (o, c) (get_hours_mem_storeWindows hget)
          obtain ⟨cEnd, hch, hce, _⟩ :=
            genShiftsForDay_inv hb.1 hb.2.1 hb.2.2.1 hb.2.2.2 hmins
          refine ⟨o, wrapClose o c, cEnd, hb.1, hb.2.1, ?_, hce, hch⟩
          have h2 := (wrapClose_facts hb.1 hb.2.1 hb.2.2.1 hb.2.2.2).2
          linarith
        · have hfilter1 : (genShiftsForDay emps (pyWeekday d1) d1 o c hrs).1.filter
              (fun s => decide (s.date = some d)) = [] := by
            rw [List.filter_eq_nil]
            intro s hs
            have := (genShiftsForDay_meta s hs).2
            simp only [this]
            simp [hd1]
          rw [hfilter1, List.nil_append]
          exact ih hpwrest _
    · exact ih hpwrest hrs

/-- C10: for every roster and month (genuine stored times of day,
    non-negative minimum shift lengths), the shifts generated for any single
    date occupy pairwise-disjoint anchored intervals across all employees
    — each pair in generation order has the earlier shift's wrap-corrected
    end at or before the later shift's anchored start — with anchored start
    times nondecreasing in generation order and non-negative durations; and
    the day generator's output is the main loop's output except that, when
    the main loop places nothing, the fallback contributes at most one
    shift (so the fallback shift exists only on a day with no other
    shifts). -/
theorem claim10_shifts_disjoint_ordered :
    (∀ (emps : List Employee) (sh : StoreHours) (year month : Nat),
      (∀ w ∈ storeWindows sh, 0 ≤ w.1 ∧ w.1 < 24 ∧ 0 ≤ w.2 ∧ w.2 < 24) →
      (∀ e ∈ emps, 0 ≤ e.min_hours_per_shift) →
      ∀ d : Date, ∃ o : ℚ,
        List.Pairwise (fun a b => aEnd o a ≤ aStart o b)
          ((generate_schedule emps sh year month).shifts.filter
            (fun s => decide (s.date = some d))) ∧
        List.Pairwise (fun a b => aStart o a ≤ aStart o b)
          ((generate_schedule emps sh year month).shifts.filter
            (fun s => decide (s.date = some d))) ∧
        ∀ s ∈ (generate_schedule emps sh year month).shifts.filter
            (fun s => decide (s.date = some d)),
          0 ≤ s.duration_hours ∧ o ≤ aStart o s) ∧
    (∀ (emps : List Employee) (day : Nat) (date : Date) (o c : ℚ)
      (hrs : String → ℚ),
      (genShiftsForDay emps day date o c hrs).1 =
        (genShiftsForDayMain emps day date o c hrs).1 ∨
      ((genShiftsForDayMain emps day date o c hrs).1 = [] ∧
        (genShiftsForDay emps day date o c hrs).1.length ≤ 1)) := by
  constructor
  · intro emps sh year month hw hmins d
    simp only [generate_schedule]
    obtain ⟨o, cP, cEnd, ho0, ho24, hcap, hce, hch⟩ :=
      scheduleFold_filter_chain hw hmins (getDatesInMonth year month)
        (getDatesInMonth_pairwise_ne year month) (fun _ => 0)
    obtain ⟨hmem, hpw⟩ := hch.props ho0 ho24 hcap (le_refl o) hce
    refine ⟨o, hpw, ?_, ?_⟩
    · refine hpw.imp_of_mem ?_
      intro a b ha hb hab
      have hda := (hmem a ha).2.2
      have : aStart o a ≤ aEnd o a := le_add_of_nonneg_right hda
      exact le_trans this hab
    · intro s hs
      exact ⟨(hmem s hs).2.2, (hmem s hs).1⟩
  · exact genShiftsForDay_main_or_fallback

/-- Witness for C10 at the Scenario B schedule and the date 2024-09-05. -/
theorem claim10_witness :
    ∃ o : ℚ,
      List.Pairwise (fun a b => aEnd o a ≤ aStart o b)
        ((generate_schedule [scenarioB_employee] scenarioB_store 2024 9).shifts.filter
          (fun s => decide (s.date = some (⟨2024, 9, 5⟩ : Date)))) ∧
      List.Pairwise (fun a b => aStart o a ≤ aStart o b)
        ((generate_schedule [scenarioB_employee] scenarioB_store 2024 9).shifts.filter
          (fun s => decide (s.date = some (⟨2024, 9, 5⟩ : Date)))) ∧
      ∀ s ∈ (generate_schedule [scenarioB_employee] scenarioB_store 2024 9).shifts.filter
          (fun s => decide (s.date = some (⟨2024, 9, 5⟩ : Date))),
        0 ≤ s.duration_hours ∧ o ≤ aStart o s :=
  claim10_shifts_disjoint_ordered.1 [scenarioB_employee] scenarioB_store 2024 9
    (by with_unfolding_all decide) (by with_unfolding_all decide) ⟨2024, 9, 5⟩
